import Mathlib

/-!
Shallow embedding of the `rgssad` archive tool (`src/main.rs`).

Bytes are modelled as `Nat` values below 256, 32-bit machine words as `Nat`
values below `U32 = 2^32` with explicit `% U32` where the Rust code uses
wrapping arithmetic.  A `File` stream is modelled as the full byte list of
the file together with an explicit position; reads that the Rust code
performs with `read_exact` / `ru32` succeed exactly when enough bytes
remain.  Fallible operations return `Option` / `ArcResult`; a Rust `panic!`
(`unwrap` of checked arithmetic) is modelled as `none`.
-/

namespace Rgssad

/-- `2^32`, the modulus of all wrapping `u32` arithmetic in the source. -/
def U32 : Nat := 2 ^ 32

/-- Embedding of `advance_magic` (src/main.rs:24-28): returns the old state
and the new state `old * 7 + 3` wrapped modulo `2^32`. -/
def advance_magic (magic : Nat) : Nat × Nat :=
  (magic, (magic * 7 + 3) % U32)

/-- The state-update half of `advance_magic`: `m * 7 + 3` mod `2^32`. -/
def magicStep (m : Nat) : Nat := (m * 7 + 3) % U32

/-- The 9/3 generator variant used once at table start in the version-3
format (src/main.rs:189 and :304): `m * 9 + 3` mod `2^32`. -/
def magic93 (m : Nat) : Nat := (m * 9 + 3) % U32

/-- Little-endian byte decomposition of a 32-bit word
(`u32::to_le_bytes`). -/
def le4 (w : Nat) : List Nat :=
  [w % 256, w / 256 % 256, w / 65536 % 256, w / 16777216 % 256]

/-- Little-endian recomposition of four bytes (`u32::from_le_bytes`). -/
def fromLe4 (a b c d : Nat) : Nat :=
  a + 256 * b + 65536 * c + 16777216 * d

/-- Embedding of `ru32` (src/main.rs:30-35): read a little-endian `u32` at
position `pos` of the stream; fails iff fewer than 4 bytes remain. -/
def readU32 (arc : List Nat) (pos : Nat) : Option Nat :=
  if pos + 4 ≤ arc.length then
    some (fromLe4 (arc.getD pos 0) (arc.getD (pos + 1) 0)
                  (arc.getD (pos + 2) 0) (arc.getD (pos + 3) 0))
  else none

/-- Embedding of `File::read_exact` into a buffer of length `n` at
position `pos`: fails iff fewer than `n` bytes remain. -/
def readBytes (arc : List Nat) (pos n : Nat) : Option (List Nat) :=
  if pos + n ≤ arc.length then some ((arc.drop pos).take n) else none

/-- The trailing-bytes loop of `Coder::copy` (src/main.rs:94-96):
`suffix[i] ^= (magic >> (i * 8)) as u8`, starting at index `i`.  The
generator state is *not* advanced by this loop. -/
def suffixXorFrom (m i : Nat) : List Nat → List Nat
  | [] => []
  | b :: bs => (b ^^^ ((m >>> (8 * i)) % 256)) :: suffixXorFrom m (i + 1) bs

/-- One pass of the chunk body of `Coder::copy` (src/main.rs:85-96) over a
byte buffer: full little-endian words are XORed against successive
generator words (`w ^= advance_magic(&mut magic)`), the 1-3 leftover bytes
are XORed against the low bytes of the *current* (not yet consumed)
generator word without advancing it.  Returns the transformed buffer and
the generator state after the chunk. -/
def coderChunk : List Nat → Nat → List Nat × Nat
  | a :: b :: c :: d :: rest, m =>
    (le4 (fromLe4 a b c d ^^^ m) ++ (coderChunk rest (magicStep m)).1,
     (coderChunk rest (magicStep m)).2)
  | rest, m => (suffixXorFrom m 0 rest, m)

/-- `coderChunk` applied to a list of consecutive chunks, threading the
generator state from one chunk to the next exactly as the loop of
`Coder::copy` threads its local `magic` across iterations. -/
def coderChunks : List (List Nat) → Nat → List Nat × Nat
  | [], m => ([], m)
  | c :: cs, m =>
    ((coderChunk c m).1 ++ (coderChunks cs (coderChunk c m).2).1,
     (coderChunks cs (coderChunk c m).2).2)

/-- Fuel-indexed loop of `Coder::copy` (src/main.rs:79-100).  Each
iteration reads `count = min (min bufLen size) remaining` bytes (the model
of `read_until_full` on a file: a full read unless EOF is reached),
returns when the read yields nothing, otherwise transforms the chunk and
continues with `size - count`.  Fuel `input.length` is always enough since
each iteration consumes at least one byte. -/
def coderCopyFuel (bufLen : Nat) : Nat → Nat → Nat → List Nat → List Nat
  | 0, _, _, _ => []
  | fuel + 1, m, size, input =>
    let count := min (min bufLen size) input.length
    if count = 0 then []
    else
      (coderChunk (input.take count) m).1 ++
        coderCopyFuel bufLen fuel (coderChunk (input.take count) m).2
          (size - count) (input.drop count)

/-- Embedding of `Coder::copy` (src/main.rs:67-101): cipher `size` bytes of
`input` (the stream contents from `data.offset` on) starting from generator
state `m`, using an internal buffer of `bufLen` bytes (8192 in the
program; the source asserts `bufLen % 4 == 0`). -/
def Coder.copy (bufLen m size : Nat) (input : List Nat) : List Nat :=
  coderCopyFuel bufLen input.length m size input

/-- The backslash-to-forward-slash normalization applied to each decoded
name byte (`if name[i] == b'\\' { name[i] = b'/' }`). -/
def slashify (c : Nat) : Nat := if c = 92 then 47 else c

/-- The forward-slash-to-backslash translation applied to each name byte
before enciphering on the write path
(`if name_buf[i] == b'/' { name_buf[i] = b'\\' }`). -/
def unslashify (c : Nat) : Nat := if c = 47 then 92 else c

/-- Legacy name decode loop (src/main.rs:160-163): each byte is XORed with
the low byte of a freshly advanced generator word (the generator advances
once per byte), then backslash is normalized to slash.  Returns the decoded
bytes and the generator state after the loop. -/
def decodeNameLegacy : List Nat → Nat → List Nat × Nat
  | [], m => ([], m)
  | b :: bs, m =>
    (slashify (b ^^^ (m % 256)) :: (decodeNameLegacy bs (magicStep m)).1,
     (decodeNameLegacy bs (magicStep m)).2)

/-- Legacy name encode loop (src/main.rs:248-253): slash is translated to
backslash, then the byte is XORed with the low byte of a freshly advanced
generator word. -/
def encodeNameLegacy : List Nat → Nat → List Nat × Nat
  | [], m => ([], m)
  | b :: bs, m =>
    ((unslashify b ^^^ (m % 256)) :: (encodeNameLegacy bs (magicStep m)).1,
     (encodeNameLegacy bs (magicStep m)).2)

/-- Version-3 name decode loop (src/main.rs:213-216): byte `i` is XORed
with byte `i % 4` of the constant table magic (no generator advance), then
backslash-normalized. -/
def decodeNameRgss3aFrom (magic : Nat) : Nat → List Nat → List Nat
  | _, [] => []
  | i, b :: bs =>
    slashify (b ^^^ ((magic >>> (8 * (i % 4))) % 256)) ::
      decodeNameRgss3aFrom magic (i + 1) bs

/-- Version-3 name encode loop (src/main.rs:312-316): slash is translated
to backslash, then byte `i` is XORed with byte `i % 4` of the constant
table magic. -/
def encodeNameRgss3aFrom (magic : Nat) : Nat → List Nat → List Nat
  | _, [] => []
  | i, b :: bs =>
    (unslashify b ^^^ ((magic >>> (8 * (i % 4))) % 256)) ::
      encodeNameRgss3aFrom magic (i + 1) bs

/-- Whether a byte is a UTF-8 continuation byte (`0x80..=0xBF`). -/
def contByte (b : Nat) : Bool := 128 ≤ b && b ≤ 191

/-- Validity of a byte list as UTF-8, as checked by Rust's
`String::from_utf8` (rejecting overlong encodings, surrogates and
code points above U+10FFFF). -/
def validUtf8 : List Nat → Bool
  | [] => true
  | b :: rest =>
    if b ≤ 127 then validUtf8 rest
    else if b ≤ 193 then false
    else if b ≤ 223 then
      match rest with
      | c :: rest2 => contByte c && validUtf8 rest2
      | [] => false
    else if b ≤ 239 then
      match rest with
      | c :: d :: rest2 =>
        (if b = 224 then 160 ≤ c && c ≤ 191
         else if b = 237 then 128 ≤ c && c ≤ 159
         else contByte c) && contByte d && validUtf8 rest2
      | _ => false
    else if b ≤ 244 then
      match rest with
      | c :: d :: e :: rest2 =>
        (if b = 240 then 144 ≤ c && c ≤ 191
         else if b = 244 then 128 ≤ c && c ≤ 143
         else contByte c) && contByte d && contByte e && validUtf8 rest2
      | _ => false
    else false

/-- Error kinds surfaced by the tool (src/main.rs:19-21 plus plain I/O
errors). -/
inductive ArcErr where
  | invalidHeader
  | invalidVersion
  | magicReadFailed
  | ioError
deriving DecidableEq, Repr

/-- `Result<α, Error>` specialised to the error kinds above. -/
inductive ArcResult (α : Type) where
  | ok (a : α)
  | err (e : ArcErr)
deriving DecidableEq, Repr

/-- Embedding of `struct EntryData` (src/main.rs:55-59). -/
structure EntryData where
  offset : Nat
  magic : Nat
  size : Nat
deriving DecidableEq, Repr

/-- Embedding of `struct Entry` (src/main.rs:104-107); the name is kept as
its list of decoded UTF-8 bytes. -/
structure Entry where
  name : List Nat
  data : EntryData
deriving DecidableEq, Repr

/-- The table-parsing loop of `RGSSArchive::open_rgssad`
(src/main.rs:153-176), fuel-indexed.  A failed read of the leading
name-length field breaks the loop (soft EOF), a failed `read_exact` of the
name bytes propagates as a hard I/O error, an invalid-UTF-8 decoded name
breaks the loop, a failed read of the size field breaks the loop.  The
entry records the stream position after its size field as `offset`, the
generator state at that moment as `magic`, and the loop skips `size` bytes
to the next record. -/
def openRgssadLoop : Nat → List Nat → Nat → Nat → List Entry → ArcResult (List Entry)
  | 0, _, _, _, acc => .ok acc
  | fuel + 1, arc, pos, m, acc =>
    match readU32 arc pos with
    | none => .ok acc
    | some raw =>
      match readBytes arc (pos + 4) (raw ^^^ m) with
      | none => .err .ioError
      | some nb =>
        if validUtf8 (decodeNameLegacy nb (magicStep m)).1 then
          match readU32 arc (pos + 4 + (raw ^^^ m)) with
          | none => .ok acc
          | some sraw =>
            openRgssadLoop fuel arc
              (pos + 4 + (raw ^^^ m) + 4 + (sraw ^^^ (decodeNameLegacy nb (magicStep m)).2))
              (magicStep (decodeNameLegacy nb (magicStep m)).2)
              (acc ++ [⟨(decodeNameLegacy nb (magicStep m)).1,
                       ⟨pos + 4 + (raw ^^^ m) + 4,
                        magicStep (decodeNameLegacy nb (magicStep m)).2,
                        sraw ^^^ (decodeNameLegacy nb (magicStep m)).2⟩⟩])
        else .ok acc

/-- Embedding of `RGSSArchive::open_rgssad` (src/main.rs:149-180): the
stream is positioned just after the 8-byte header, the table generator
seed is the fixed constant `0xDEADCAFE`.  Fuel `arc.length + 1` always
suffices, since every loop iteration advances the position by at least 8
and requires at least 4 readable bytes. -/
def openRgssad (arc : List Nat) : ArcResult (List Entry) :=
  openRgssadLoop (arc.length + 1) arc 8 0xDEADCAFE []

/-- The table-parsing loop of `RGSSArchive::open_rgss3a`
(src/main.rs:191-224), fuel-indexed.  All four leading fields soft-EOF on
read failure, a decoded offset of 0 terminates the table, name-byte
truncation is a hard I/O error, invalid UTF-8 breaks the loop.  The table
magic is constant throughout. -/
def openRgss3aLoop : Nat → List Nat → Nat → Nat → List Entry → ArcResult (List Entry)
  | 0, _, _, _, acc => .ok acc
  | fuel + 1, arc, pos, magic, acc =>
    match readU32 arc pos with
    | none => .ok acc
    | some oraw =>
      if oraw ^^^ magic = 0 then .ok acc
      else
        match readU32 arc (pos + 4) with
        | none => .ok acc
        | some sraw =>
          match readU32 arc (pos + 8) with
          | none => .ok acc
          | some mraw =>
            match readU32 arc (pos + 12) with
            | none => .ok acc
            | some lraw =>
              match readBytes arc (pos + 16) (lraw ^^^ magic) with
              | none => .err .ioError
              | some nb =>
                if validUtf8 (decodeNameRgss3aFrom magic 0 nb) then
                  openRgss3aLoop fuel arc (pos + 16 + (lraw ^^^ magic)) magic
                    (acc ++ [⟨decodeNameRgss3aFrom magic 0 nb,
                             ⟨oraw ^^^ magic, mraw ^^^ magic, sraw ^^^ magic⟩⟩])
                else .ok acc

/-- Embedding of `RGSSArchive::open_rgss3a` (src/main.rs:182-228): reads
the plaintext seed word just after the header (failure is
`MagicReadFailed`), transforms it once through the 9/3 generator to obtain
the constant table magic, then parses records from position 12. -/
def openRgss3a (arc : List Nat) : ArcResult (List Entry) :=
  match readU32 arc 8 with
  | none => .err .magicReadFailed
  | some s => openRgss3aLoop (arc.length + 1) arc 12 (magic93 s) []

/-- Embedding of `RGSSArchive::open` (src/main.rs:131-147): read the
8-byte header (hard I/O error when the file is shorter), check the 6-byte
magic string, dispatch on the version byte `header[7]`.  Returns the
version together with the parsed entry table. -/
def openArchive (arc : List Nat) : ArcResult (Nat × List Entry) :=
  if arc.length < 8 then .err .ioError
  else if arc.take 6 ≠ [82, 71, 83, 83, 65, 68] then .err .invalidHeader
  else
    match arc.getD 7 0 with
    | 1 => (match openRgssad arc with
            | .ok es => .ok (1, es)
            | .err e => .err e)
    | 2 => (match openRgssad arc with
            | .ok es => .ok (2, es)
            | .err e => .err e)
    | 3 => (match openRgss3a arc with
            | .ok es => .ok (3, es)
            | .err e => .err e)
    | _ => .err .invalidVersion

/-- The body of the per-entry loop of `RGSSArchive::write_entries_rgssad`
(src/main.rs:241-268) for one entry: emit the enciphered name length,
the byte-wise enciphered name, the enciphered size, then the entry data
ciphered by `Coder::copy` starting from the table generator state reached
after the size field.  Returns the emitted bytes and the table generator
state after the entry (the data cipher works on a copy of the state and
does not advance it). -/
def writeEntryRgssad (name content : List Nat) (m : Nat) : List Nat × Nat :=
  (le4 (name.length ^^^ m) ++
     (encodeNameLegacy name (magicStep m)).1 ++
     le4 (content.length ^^^ (encodeNameLegacy name (magicStep m)).2) ++
     Coder.copy 8192 (magicStep (encodeNameLegacy name (magicStep m)).2)
       content.length content,
   magicStep (encodeNameLegacy name (magicStep m)).2)

/-- Embedding of `RGSSArchive::write_entries_rgssad` (src/main.rs:238-272)
over a list of `(name, file contents)` pairs; the entry sizes are the
content lengths, as collected by `walkdir` (src/main.rs:360-380).  The
`try_into().unwrap()` on the name length and the `u64 -> u32` size
conversion panic on overflow; a panic is modelled as `none`. -/
def writeEntriesRgssad : List (List Nat × List Nat) → Nat → Option (List Nat × Nat)
  | [], m => some ([], m)
  | (name, content) :: rest, m =>
    if name.length < U32 ∧ content.length < U32 then
      match writeEntriesRgssad rest (writeEntryRgssad name content m).2 with
      | some (outs, mf) => some ((writeEntryRgssad name content m).1 ++ outs, mf)
      | none => none
    else none

/-- The 8-byte archive header `RGSSAD\0<version>` written by
`RGSSArchive::create` (src/main.rs:123). -/
def headerBytes (version : Nat) : List Nat :=
  [82, 71, 83, 83, 65, 68, 0, version]

/-- A version-1 archive file built by `create` + `walkdir` +
`write_entries_rgssad` from the given `(name, contents)` list: header with
version byte 1, then the interleaved table/data stream started from the
constant seed `0xDEADCAFE`. -/
def buildRgssad (files : List (List Nat × List Nat)) : Option (List Nat) :=
  match writeEntriesRgssad files 0xDEADCAFE with
  | some (bytes, _) => some (headerBytes 1 ++ bytes)
  | none => none

/-- `u32::checked_add` (src/main.rs:286-295): `none` iff the mathematical
sum exceeds `u32::MAX = U32 - 1`. -/
def checkedAdd (a b : Nat) : Option Nat :=
  if a + b ≤ U32 - 1 then some (a + b) else none

/-- First loop of `RGSSArchive::write_entries_rgss3a` (src/main.rs:282-288):
starting from `off = 8 + 4`, add each entry's name length (which must fit
a `u32`, `try_into().unwrap()`) and 16 with checked arithmetic.  `none`
models the panic of `unwrap`. -/
def tableEndRgss3a : List (List Nat × List Nat) → Nat → Option Nat
  | [], off => some off
  | (name, _) :: rest, off =>
    if name.length < U32 then
      match checkedAdd off name.length with
      | none => none
      | some o1 =>
        match checkedAdd o1 16 with
        | none => none
        | some o2 => tableEndRgss3a rest o2
    else none

/-- A fully laid-out version-3 entry: name, file contents, assigned data
offset and the per-entry cipher magic. -/
structure R3Entry where
  name : List Nat
  content : List Nat
  offset : Nat
  emagic : Nat
deriving DecidableEq, Repr

/-- Second loop of `RGSSArchive::write_entries_rgss3a`
(src/main.rs:293-299): assign each entry the running offset, advance it by
the entry's size with checked arithmetic, and set the per-entry magic to
the constant `0xDEADCAFE`. -/
def assignEntriesRgss3a : List (List Nat × List Nat) → Nat → Option (List R3Entry)
  | [], _ => some []
  | (name, content) :: rest, off =>
    match checkedAdd off content.length with
    | none => none
    | some off2 =>
      match assignEntriesRgss3a rest off2 with
      | none => none
      | some es => some (⟨name, content, off, 0xDEADCAFE⟩ :: es)

/-- The offset-computation phase of `RGSSArchive::write_entries_rgss3a`
(src/main.rs:280-299): table end = 12 + per-entry (16 + name length),
plus 4 for the terminator record, then assign the running data offsets. -/
def prepareRgss3a (files : List (List Nat × List Nat)) : Option (List R3Entry) :=
  match tableEndRgss3a files 12 with
  | none => none
  | some t =>
    match checkedAdd t 4 with
    | none => none
    | some t4 => assignEntriesRgss3a files t4

/-- One table record emitted by `write_entries_rgss3a` (src/main.rs:306-317):
offset, size, per-entry magic and name length each XORed against the
constant table magic, followed by the enciphered name bytes. -/
def writeTableEntryRgss3a (tm : Nat) (e : R3Entry) : List Nat :=
  le4 (e.offset ^^^ tm) ++ le4 (e.content.length ^^^ tm) ++
    le4 (e.emagic ^^^ tm) ++ le4 (e.name.length ^^^ tm) ++
    encodeNameRgss3aFrom tm 0 e.name

/-- Embedding of `RGSSArchive::write_entries_rgss3a` (src/main.rs:274-339):
after the offset computation, write the plaintext seed word, transform it
once through the 9/3 generator into the table magic, emit every table
record, the terminator word `0 ^ magic`, and finally each entry's data
ciphered from its per-entry magic. -/
def writeEntriesRgss3a (files : List (List Nat × List Nat)) (m : Nat) : Option (List Nat) :=
  match prepareRgss3a files with
  | none => none
  | some es =>
    some (le4 m ++ (es.map (writeTableEntryRgss3a (magic93 m))).flatten ++
          le4 (0 ^^^ magic93 m) ++
          (es.map (fun e => Coder.copy 8192 e.emagic e.content.length e.content)).flatten)

/-- A version-3 archive file built by `create` + `walkdir` +
`write_entries_rgss3a`: header with version byte 3, initial magic 0
(src/main.rs:125). -/
def buildRgss3a (files : List (List Nat × List Nat)) : Option (List Nat) :=
  match writeEntriesRgss3a files 0 with
  | some bytes => some (headerBytes 3 ++ bytes)
  | none => none

/-- Extraction of one entry as performed by `unpack` (src/main.rs:417-427):
`Coder::copy` seeks the archive stream to the entry's offset and ciphers
`size` bytes starting from the entry's magic. -/
def extractEntry (arc : List Nat) (e : Entry) : List Nat :=
  Coder.copy 8192 e.data.magic e.data.size (arc.drop e.data.offset)

/-- A filesystem modelled as an association list from paths (byte lists)
to file contents. -/
def FS : Type := List (List Nat × List Nat)

/-- Store (create or truncate) a file. -/
def fsSet (fs : FS) (path bytes : List Nat) : FS :=
  match fs with
  | [] => [(path, bytes)]
  | (p, b) :: rest => if p = path then (path, bytes) :: rest else (p, b) :: fsSet rest path bytes

/-- Look up a file's contents. -/
def fsGet (fs : FS) (path : List Nat) : Option (List Nat) :=
  match fs with
  | [] => none
  | (p, b) :: rest => if p = path then some b else fsGet rest path

/-- An in-memory archive handle as returned by `RGSSArchive::create`:
current table magic and version (the entry list starts empty). -/
structure ArchiveHandle where
  magic : Nat
  version : Nat
deriving DecidableEq, Repr

/-- Embedding of `RGSSArchive::create` (src/main.rs:117-129) together with
its filesystem effect: `File::create` first creates (truncating) the file
at `location`, then the version is validated — an invalid version returns
`InvalidVersion` with the file already created and empty — and only for a
valid version is the 8-byte header written.  The initial table magic is 0
for version 3 and `0xDEADCAFE` otherwise. -/
def RGSSArchive.create (fs : FS) (location : List Nat) (version : Nat) :
    FS × ArcResult ArchiveHandle :=
  let fs1 := fsSet fs location []
  if version < 1 ∨ version > 3 then (fs1, .err .invalidVersion)
  else (fsSet fs1 location (headerBytes version),
        .ok ⟨if version = 3 then 0 else 0xDEADCAFE, version⟩)

/-- The version of a successfully opened archive (0 on error); used to
phrase the concrete round-trip statements. -/
def openedVersion (r : ArcResult (Nat × List Entry)) : Nat :=
  match r with
  | .ok (v, _) => v
  | .err _ => 0

/-- The entry list of a successful `openArchive` result (empty on error);
used to phrase the concrete round-trip statements. -/
def openedEntries (r : ArcResult (Nat × List Entry)) : List Entry :=
  match r with
  | .ok (_, es) => es
  | .err _ => []

/-- Whether an `ArcResult` is a success. -/
def ArcResult.isOk {α : Type} : ArcResult α → Bool
  | .ok _ => true
  | .err _ => false

/-- Whether every chunk of a split except possibly the last has a length
divisible by 4 (i.e. all the cut points are word-aligned).  The chunks the
`Coder::copy` loop itself produces always satisfy this, since its buffer
length 8192 is a multiple of 4 (asserted at src/main.rs:73). -/
def aligned4 : List (List Nat) → Bool
  | [] => true
  | [_] => true
  | c :: cs => decide (4 ∣ c.length) && aligned4 cs

/-- The two demo files of the spec's round-trip scenario:
`{a.txt: "hi", sub/b.txt: "world"}`, as `(name, contents)` byte lists. -/
def demoFiles : List (List Nat × List Nat) :=
  [([97, 46, 116, 120, 116], [104, 105]),
   ([115, 117, 98, 47, 98, 46, 116, 120, 116], [119, 111, 114, 108, 100])]

/-- The value computed by `assignEntriesRgss3a` when no checked addition
fails: each entry gets the running offset, which then advances by the
entry's size (used to state the closed form of the offset assignment). -/
def specAssign : List (List Nat × List Nat) → Nat → List R3Entry
  | [], _ => []
  | (name, content) :: rest, off =>
    ⟨name, content, off, 0xDEADCAFE⟩ :: specAssign rest (off + content.length)

/-! ### Helper lemmas about the cipher core -/

theorem U32_eq : U32 = 4294967296 := rfl

theorem magicStep_lt (m : Nat) : magicStep m < U32 := by
  simp only [magicStep, U32_eq]; omega

theorem xor_lt_U32 {a b : Nat} (ha : a < U32) (hb : b < U32) : a ^^^ b < U32 :=
  Nat.xor_lt_two_pow ha hb

theorem fromLe4_lt {a b c d : Nat} (ha : a < 256) (hb : b < 256) (hc : c < 256)
    (hd : d < 256) : fromLe4 a b c d < U32 := by
  simp only [fromLe4, U32_eq]; omega

theorem le4_fromLe4 {a b c d : Nat} (ha : a < 256) (hb : b < 256) (hc : c < 256)
    (hd : d < 256) : le4 (fromLe4 a b c d) = [a, b, c, d] := by
  simp only [le4, fromLe4, List.cons.injEq, and_true]
  omega

theorem fromLe4_le4 {w : Nat} (h : w < U32) :
    fromLe4 (w % 256) (w / 256 % 256) (w / 65536 % 256) (w / 16777216 % 256) = w := by
  simp only [fromLe4, U32_eq] at *
  omega

/-- Custom induction principle matching the 4-bytes-at-a-time recursion of
`coderChunk`. -/
theorem chunk4_induction (P : List Nat → Prop) (h0 : P []) (h1 : ∀ a, P [a])
    (h2 : ∀ a b, P [a, b]) (h3 : ∀ a b c, P [a, b, c])
    (h4 : ∀ a b c d rest, P rest → P (a :: b :: c :: d :: rest)) : ∀ l, P l
  | [] => h0
  | [a] => h1 a
  | [a, b] => h2 a b
  | [a, b, c] => h3 a b c
  | a :: b :: c :: d :: rest => h4 a b c d rest (chunk4_induction P h0 h1 h2 h3 h4 rest)

theorem coderChunk_cons4 (a b c d : Nat) (rest : List Nat) (m : Nat) :
    coderChunk (a :: b :: c :: d :: rest) m =
      (le4 (fromLe4 a b c d ^^^ m) ++ (coderChunk rest (magicStep m)).1,
       (coderChunk rest (magicStep m)).2) := rfl

theorem coderChunk_nil (m : Nat) : coderChunk [] m = ([], m) := rfl

theorem coderChunk_one (a m : Nat) : coderChunk [a] m = (suffixXorFrom m 0 [a], m) := rfl

theorem coderChunk_two (a b m : Nat) :
    coderChunk [a, b] m = (suffixXorFrom m 0 [a, b], m) := rfl

theorem coderChunk_three (a b c m : Nat) :
    coderChunk [a, b, c] m = (suffixXorFrom m 0 [a, b, c], m) := rfl

theorem suffixXorFrom_involutive (m : Nat) : ∀ (i : Nat) (bs : List Nat),
    suffixXorFrom m i (suffixXorFrom m i bs) = bs
  | _, [] => rfl
  | i, b :: bs => by
    simp only [suffixXorFrom, Nat.xor_cancel_right, List.cons.injEq, true_and]
    exact suffixXorFrom_involutive m (i + 1) bs

theorem suffixXorFrom_length (m : Nat) : ∀ (i : Nat) (bs : List Nat),
    (suffixXorFrom m i bs).length = bs.length
  | _, [] => rfl
  | i, b :: bs => by
    simp only [suffixXorFrom, List.length_cons, suffixXorFrom_length m (i + 1) bs]

theorem coderChunk_length (bs : List Nat) : ∀ m, (coderChunk bs m).1.length = bs.length := by
  induction bs using chunk4_induction with
  | h0 => intro m; rfl
  | h1 a => intro m; rfl
  | h2 a b => intro m; rfl
  | h3 a b c => intro m; rfl
  | h4 a b c d rest ih =>
    intro m
    simp only [coderChunk_cons4, List.length_append, ih, le4, List.length_cons,
      List.length_nil]
    omega

/-- Splitting a buffer at a word-aligned point commutes with the chunk
cipher: the words and the threaded state line up exactly. -/
theorem coderChunk_append (xs : List Nat) : ∀ (ys : List Nat) (m : Nat), 4 ∣ xs.length →
    coderChunk (xs ++ ys) m =
      ((coderChunk xs m).1 ++ (coderChunk ys (coderChunk xs m).2).1,
       (coderChunk ys (coderChunk xs m).2).2) := by
  induction xs using chunk4_induction with
  | h0 => intro ys m _; simp [coderChunk_nil]
  | h1 a => intro ys m h; simp only [List.length_cons, List.length_nil] at h; omega
  | h2 a b => intro ys m h; simp only [List.length_cons, List.length_nil] at h; omega
  | h3 a b c => intro ys m h; simp only [List.length_cons, List.length_nil] at h; omega
  | h4 a b c d rest ih =>
    intro ys m h
    have h4r : 4 ∣ rest.length := by
      simp only [List.length_cons] at h; omega
    simp only [List.cons_append, coderChunk_cons4, ih ys (magicStep m) h4r,
      List.append_assoc]

/-- The chunk cipher is an involution: applying it twice from the same
state returns the original bytes and the same final state. -/
theorem coderChunk_involutive (bs : List Nat) : ∀ m, (∀ x ∈ bs, x < 256) → m < U32 →
    coderChunk (coderChunk bs m).1 m = (bs, (coderChunk bs m).2) := by
  induction bs using chunk4_induction with
  | h0 => intro m _ _; rfl
  | h1 a =>
    intro m _ _
    simp [coderChunk_one, suffixXorFrom, Nat.xor_cancel_right]
  | h2 a b =>
    intro m _ _
    simp [coderChunk_two, suffixXorFrom, Nat.xor_cancel_right]
  | h3 a b c =>
    intro m _ _
    simp [coderChunk_three, suffixXorFrom, Nat.xor_cancel_right]
  | h4 a b c d rest ih =>
    intro m hb hm
    have ha1 : a < 256 := hb a (by simp)
    have hb1 : b < 256 := hb b (by simp)
    have hc1 : c < 256 := hb c (by simp)
    have hd1 : d < 256 := hb d (by simp)
    have hrest : ∀ x ∈ rest, x < 256 := fun x hx => hb x (by simp [hx])
    have hw : fromLe4 a b c d < U32 := fromLe4_lt ha1 hb1 hc1 hd1
    have hwm : fromLe4 a b c d ^^^ m < U32 := xor_lt_U32 hw hm
    have ihm := ih (magicStep m) hrest (magicStep_lt m)
    rw [coderChunk_cons4]
    show coderChunk
        ((fromLe4 a b c d ^^^ m) % 256 :: (fromLe4 a b c d ^^^ m) / 256 % 256 ::
         (fromLe4 a b c d ^^^ m) / 65536 % 256 :: (fromLe4 a b c d ^^^ m) / 16777216 % 256 ::
         (coderChunk rest (magicStep m)).1) m = _
    rw [coderChunk_cons4, fromLe4_le4 hwm, Nat.xor_cancel_right, le4_fromLe4 ha1 hb1 hc1 hd1,
      ihm]
    simp

/-- Chunked application of the cipher along a word-aligned split agrees
with the one-shot application to the concatenation, in output and final
state alike. -/
theorem coderChunks_aligned : ∀ (cs : List (List Nat)) (m : Nat), aligned4 cs = true →
    coderChunks cs m = coderChunk cs.flatten m
  | [], m, _ => by simp [coderChunks, List.flatten_nil, coderChunk_nil]
  | [c], m, _ => by
    simp [coderChunks, coderChunk_nil, List.flatten_cons, List.flatten_nil]
  | c :: c2 :: cs, m, h => by
    have hal : (4 ∣ c.length) ∧ aligned4 (c2 :: cs) = true := by
      have : aligned4 (c :: c2 :: cs) = (decide (4 ∣ c.length) && aligned4 (c2 :: cs)) := rfl
      rw [this] at h
      simpa using h
    have ihr := coderChunks_aligned (c2 :: cs) (coderChunk c m).2 hal.2
    show ((coderChunk c m).1 ++ (coderChunks (c2 :: cs) (coderChunk c m).2).1,
          (coderChunks (c2 :: cs) (coderChunk c m).2).2) = _
    rw [ihr, show (c :: c2 :: cs).flatten = c ++ (c2 :: cs).flatten from rfl,
      coderChunk_append c ((c2 :: cs).flatten) m hal.1]

theorem coderCopyFuel_zero_input (bufLen : Nat) :
    ∀ (fuel m size : Nat), coderCopyFuel bufLen fuel m size [] = []
  | 0, _, _ => rfl
  | fuel + 1, m, size => by simp [coderCopyFuel]

theorem coderCopyFuel_all (bufLen : Nat) : ∀ (b : List Nat) (m : Nat), b.length ≤ bufLen →
    coderCopyFuel bufLen b.length m b.length b = (coderChunk b m).1
  | [], _, _ => rfl
  | x :: xs, m, hlen => by
    simp only [List.length_cons] at hlen ⊢
    rw [coderCopyFuel]
    simp only [List.length_cons]
    have hmin : min (min bufLen (xs.length + 1)) (xs.length + 1) = xs.length + 1 := by
      omega
    simp only [hmin, if_neg (Nat.succ_ne_zero xs.length), List.take_succ_cons,
      List.take_length, List.drop_succ_cons, List.drop_length, Nat.sub_self,
      coderCopyFuel_zero_input, List.append_nil]

/-- `Coder::copy` over a buffer that fits in one internal read processes
it as a single chunk. -/
theorem coderCopy_eq_chunk (bufLen m : Nat) (b : List Nat) (hlen : b.length ≤ bufLen) :
    Coder.copy bufLen m b.length b = (coderChunk b m).1 :=
  coderCopyFuel_all bufLen b m hlen

/-! ### Helper lemmas about the name ciphers -/

theorem decodeNameLegacy_snd : ∀ (bs : List Nat) (m : Nat),
    (decodeNameLegacy bs m).2 = magicStep^[bs.length] m
  | [], m => rfl
  | b :: bs, m => by
    simp only [decodeNameLegacy, decodeNameLegacy_snd bs (magicStep m), List.length_cons,
      Function.iterate_succ_apply]

theorem encodeNameLegacy_snd : ∀ (bs : List Nat) (m : Nat),
    (encodeNameLegacy bs m).2 = magicStep^[bs.length] m
  | [], m => rfl
  | b :: bs, m => by
    simp only [encodeNameLegacy, encodeNameLegacy_snd bs (magicStep m), List.length_cons,
      Function.iterate_succ_apply]

theorem decodeNameLegacy_fst : ∀ (bs : List Nat) (m : Nat),
    (decodeNameLegacy bs m).1 =
      (List.range bs.length).map (fun i => slashify (bs.getD i 0 ^^^ (magicStep^[i] m % 256)))
  | [], m => rfl
  | b :: bs, m => by
    simp only [decodeNameLegacy, decodeNameLegacy_fst bs (magicStep m), List.length_cons,
      List.range_succ_eq_map, List.map_cons, List.map_map]
    refine congrArg₂ _ ?_ ?_
    · simp
    · refine List.map_congr_left fun i _ => ?_
      simp [Function.comp, Function.iterate_succ_apply, Nat.succ_eq_add_one]

theorem encodeNameLegacy_fst : ∀ (bs : List Nat) (m : Nat),
    (encodeNameLegacy bs m).1 =
      (List.range bs.length).map (fun i => unslashify (bs.getD i 0) ^^^ (magicStep^[i] m % 256))
  | [], m => rfl
  | b :: bs, m => by
    simp only [encodeNameLegacy, encodeNameLegacy_fst bs (magicStep m), List.length_cons,
      List.range_succ_eq_map, List.map_cons, List.map_map]
    refine congrArg₂ _ ?_ ?_
    · simp
    · refine List.map_congr_left fun i _ => ?_
      simp [Function.comp, Function.iterate_succ_apply, Nat.succ_eq_add_one]

/-! ### Helper lemmas about the version-3 offset computation -/

theorem tableEndRgss3a_eq : ∀ (files : List (List Nat × List Nat)) (off : Nat),
    off ≤ U32 - 1 →
    tableEndRgss3a files off =
      if off + (files.map (fun p => 16 + p.1.length)).sum ≤ U32 - 1 then
        some (off + (files.map (fun p => 16 + p.1.length)).sum)
      else none
  | [], off => by
    intro hoff
    simp only [U32_eq] at hoff ⊢
    simp [tableEndRgss3a, hoff]
  | (name, content) :: rest, off => by
    intro hoff
    have ih := tableEndRgss3a_eq rest (off + name.length + 16)
    simp only [tableEndRgss3a, checkedAdd, List.map_cons, List.sum_cons, U32_eq] at ih hoff ⊢
    by_cases h1 : name.length < 4294967296
    · simp only [if_pos h1]
      by_cases h2 : off + name.length ≤ 4294967296 - 1
      · simp only [if_pos h2]
        by_cases h3 : off + name.length + 16 ≤ 4294967296 - 1
        · simp only [if_pos h3]
          rw [ih h3]
          split_ifs with h4 h5 <;> first | (congr 1; omega) | omega | rfl
        · simp only [if_neg h3]
          rw [if_neg (by omega)]
      · simp only [if_neg h2]
        rw [if_neg (by omega)]
    · simp only [if_neg h1]
      rw [if_neg (by omega)]

theorem assignEntriesRgss3a_eq : ∀ (files : List (List Nat × List Nat)) (off : Nat),
    off ≤ U32 - 1 →
    assignEntriesRgss3a files off =
      if off + (files.map (fun p => p.2.length)).sum ≤ U32 - 1 then
        some (specAssign files off)
      else none
  | [], off => by
    intro hoff
    simp only [U32_eq] at hoff ⊢
    simp [assignEntriesRgss3a, specAssign, hoff]
  | (name, content) :: rest, off => by
    intro hoff
    have ih := assignEntriesRgss3a_eq rest (off + content.length)
    simp only [assignEntriesRgss3a, checkedAdd, List.map_cons, List.sum_cons, specAssign,
      U32_eq] at ih hoff ⊢
    by_cases h1 : off + content.length ≤ 4294967296 - 1
    · simp only [if_pos h1]
      rw [ih h1]
      split_ifs with h2 h3 <;> first | rfl | omega
    · simp only [if_neg h1]
      rw [if_neg (by omega)]

theorem specAssign_length : ∀ (files : List (List Nat × List Nat)) (off : Nat),
    (specAssign files off).length = files.length
  | [], _ => rfl
  | (name, content) :: rest, off => by
    simp [specAssign, specAssign_length rest (off + content.length)]

theorem specAssign_head : ∀ (files : List (List Nat × List Nat)) (off : Nat)
    (d : R3Entry), files ≠ [] → ((specAssign files off).getD 0 d).offset = off
  | [], _, _, h => absurd rfl h
  | (_, _) :: _, _, _, _ => rfl

theorem specAssign_succ : ∀ (files : List (List Nat × List Nat)) (off : Nat)
    (d : R3Entry) (i : Nat), i + 1 < (specAssign files off).length →
    ((specAssign files off).getD (i + 1) d).offset =
      ((specAssign files off).getD i d).offset +
        ((specAssign files off).getD i d).content.length
  | [], _, _, _, h => by simp [specAssign] at h
  | (name, content) :: rest, off, d, 0, h => by
    have hne : rest ≠ [] := by
      simp only [specAssign, List.length_cons, specAssign_length] at h
      cases rest with
      | nil => simp at h
      | cons a b => simp
    simp only [specAssign, List.getD_cons_succ, List.getD_cons_zero]
    exact specAssign_head rest (off + content.length) d hne
  | (name, content) :: rest, off, d, i + 1, h => by
    simp only [specAssign, List.getD_cons_succ]
    refine specAssign_succ rest (off + content.length) d i ?_
    simp only [specAssign, List.length_cons] at h
    omega

theorem sum_split : ∀ (gs : List (List Nat × List Nat)),
    (gs.map (fun p => 16 + p.1.length + p.2.length)).sum =
      (gs.map (fun p => 16 + p.1.length)).sum + (gs.map (fun p => p.2.length)).sum
  | [] => rfl
  | (name, content) :: rest => by
    simp only [List.map_cons, List.sum_cons, sum_split rest]
    omega

/-- Closed form of the whole offset-computation phase: it succeeds iff the
final accumulated value `16 + Σ (16 + name length) + Σ size` fits in a
`u32`, and then assigns the running offsets starting at the end of the
table region. -/
theorem prepareRgss3a_eq (files : List (List Nat × List Nat)) :
    prepareRgss3a files =
      if 16 + (files.map (fun p => 16 + p.1.length)).sum +
           (files.map (fun p => p.2.length)).sum ≤ U32 - 1 then
        some (specAssign files (16 + (files.map (fun p => 16 + p.1.length)).sum))
      else none := by
  have h12 : (12 : Nat) ≤ U32 - 1 := by rw [U32_eq]; omega
  unfold prepareRgss3a
  rw [tableEndRgss3a_eq files 12 h12]
  by_cases h1 : 12 + (files.map (fun p => 16 + p.1.length)).sum ≤ U32 - 1
  · rw [if_pos h1]
    show (match checkedAdd (12 + (files.map (fun p => 16 + p.1.length)).sum) 4 with
          | none => none
          | some t4 => assignEntriesRgss3a files t4) = _
    simp only [checkedAdd]
    by_cases h2 : 12 + (files.map (fun p => 16 + p.1.length)).sum + 4 ≤ U32 - 1
    · simp only [if_pos h2]
      show assignEntriesRgss3a files (12 + (files.map (fun p => 16 + p.1.length)).sum + 4) = _
      rw [assignEntriesRgss3a_eq files _ h2]
      rw [show 12 + (files.map (fun p => 16 + p.1.length)).sum + 4 =
            16 + (files.map (fun p => 16 + p.1.length)).sum from by omega]
    · simp only [if_neg h2]
      show none = _
      rw [if_neg (by rw [U32_eq] at *; omega)]
  · rw [if_neg h1]
    show none = _
    rw [if_neg (by rw [U32_eq] at *; omega)]

theorem fsGet_fsSet : ∀ (fs : FS) (p b : List Nat), fsGet (fsSet fs p b) p = some b
  | [], p, b => by simp [fsSet, fsGet]
  | (q, c) :: rest, p, b => by
    by_cases h : q = p
    · simp [fsSet, fsGet, h]
    · simp [fsSet, fsGet, h, fsGet_fsSet rest p b]

/-! ### Claim theorems -/

/-- C1 (counterexample to the claim as stated): for `b` = ten zero bytes
and seed `s = 0`, the first cipher pass applied whole-buffer yields
`[0,0,0,0,3,0,0,0,24,0]`; applying the second pass from the same seed as
the split `6 + 4` (consecutive sub-buffers whose lengths sum to `len b`)
does *not* return `b`: the suffix bytes of a 6-byte chunk consume low
bytes of the current generator word without advancing it, so a following
chunk reuses that word from byte 0. -/
theorem claim_C1_counterexample :
    (coderChunk [0, 0, 0, 0, 0, 0, 0, 0, 0, 0] 0).1 = [0, 0, 0, 0, 3, 0] ++ [0, 0, 24, 0] ∧
    (coderChunks [[0, 0, 0, 0, 3, 0], [0, 0, 24, 0]] 0).1 ≠
      [0, 0, 0, 0, 0, 0, 0, 0, 0, 0] := by decide

/-- C1 (amended): the cipher round-trip `cipher(cipher(b, s), s) = b` holds
for the whole buffer and for any splits into consecutive sub-buffers of
either pass whose cut points are word-aligned (every chunk except the last
has length divisible by 4) — in particular for the chunking `Coder::copy`
itself performs with its 8192-byte buffer. -/
theorem claim_C1 (b : List Nat) (m : Nat) (cs1 cs2 : List (List Nat))
    (hb : ∀ x ∈ b, x < 256) (hm : m < U32)
    (h1 : cs1.flatten = b) (h2 : cs2.flatten = (coderChunks cs1 m).1)
    (a1 : aligned4 cs1 = true) (a2 : aligned4 cs2 = true) :
    (coderChunks cs2 m).1 = b ∧
    (b.length ≤ 8192 → Coder.copy 8192 m b.length (Coder.copy 8192 m b.length b) = b) := by
  constructor
  · rw [coderChunks_aligned cs2 m a2, h2, coderChunks_aligned cs1 m a1, h1]
    exact congrArg Prod.fst (coderChunk_involutive b m hb hm)
  · intro hlen
    rw [coderCopy_eq_chunk 8192 m b hlen]
    have hc : (coderChunk b m).1.length = b.length := coderChunk_length b m
    rw [show b.length = (coderChunk b m).1.length from hc.symm]
    rw [coderCopy_eq_chunk 8192 m _ (by rw [hc]; exact hlen)]
    exact congrArg Prod.fst (coderChunk_involutive b m hb hm)

theorem claim_C1_witness :
    (coderChunks [[0, 0, 0, 0, 3, 0, 0, 0], [24, 0]] 0).1 =
      [0, 0, 0, 0, 0, 0, 0, 0, 0, 0] ∧
    ((0 : Nat) + 10 ≤ 8192 →
      Coder.copy 8192 0 [0, 0, 0, 0, 0, 0, 0, 0, 0, (0 : Nat)].length
        (Coder.copy 8192 0 [0, 0, 0, 0, 0, 0, 0, 0, 0, (0 : Nat)].length
          [0, 0, 0, 0, 0, 0, 0, 0, 0, 0]) = [0, 0, 0, 0, 0, 0, 0, 0, 0, 0]) := by
  have h := claim_C1 [0, 0, 0, 0, 0, 0, 0, 0, 0, 0] 0
    [[0, 0, 0, 0], [0, 0, 0, 0, 0, 0]] [[0, 0, 0, 0, 3, 0, 0, 0], [24, 0]]
    (by decide) (by decide) (by decide) (by decide) (by decide) (by decide)
  exact ⟨h.1, fun _ => h.2 (by decide)⟩

/-- C3 (counterexample to the claim as stated): decoding ten zero bytes
from seed 0 in one call gives `[0,0,0,0,3,0,0,0,24,0]`, but decoding the
same bytes in two consecutive calls of 6 then 4 bytes gives
`[0,0,0,0,3,0,3,0,0,0]`: the 6-byte call ends by using two bytes of the
next generator word without advancing it, and the following call restarts
that word at byte 0, so the split at a non-multiple of 4 changes bytes 6-9
of the plaintext. -/
theorem claim_C3_counterexample :
    (coderChunks [[0, 0, 0, 0, 0, 0], [0, 0, 0, 0]] 0).1 ≠
      (coderChunk ([0, 0, 0, 0, 0, 0] ++ [0, 0, 0, 0]) 0).1 := by decide

/-- C3 (amended): decoding is independent of buffer chunking whenever the
chunk boundaries are word-aligned (every chunk except the last has length
divisible by 4): the chunked cipher, threading the generator state across
calls, yields exactly the one-call plaintext — in particular a 10-byte
entry decoded as 4+6 or 8+2 equals the one-call decode; the 6+4 split of
the claim's own example does not qualify and in fact differs. -/
theorem claim_C3 (cs : List (List Nat)) (m : Nat) (h : aligned4 cs = true) :
    (coderChunks cs m).1 = (coderChunk cs.flatten m).1 :=
  congrArg Prod.fst (coderChunks_aligned cs m h)

theorem claim_C3_witness :
    (coderChunks [[0, 0, 0, 0], [0, 0, 0, 0, 0, 0]] 0).1 =
      (coderChunk [[0, 0, 0, 0], [0, 0, 0, 0, 0, (0 : Nat)]].flatten 0).1 :=
  claim_C3 [[0, 0, 0, 0], [0, 0, 0, 0, 0, 0]] 0 (by decide)

/-- C4: building a version-1 archive from `{a.txt: "hi", sub/b.txt:
"world"}` (ASCII byte lists), then opening it and extracting both entries,
reproduces the original contents byte for byte, and the recovered names
use forward slashes (byte 47 in `sub/b.txt`). -/
theorem claim_C4 :
    (buildRgssad demoFiles).isSome = true ∧
    openedVersion (openArchive ((buildRgssad demoFiles).getD [])) = 1 ∧
    (openedEntries (openArchive ((buildRgssad demoFiles).getD []))).map Entry.name =
      [[97, 46, 116, 120, 116], [115, 117, 98, 47, 98, 46, 116, 120, 116]] ∧
    (openedEntries (openArchive ((buildRgssad demoFiles).getD []))).map
        (extractEntry ((buildRgssad demoFiles).getD [])) =
      [[104, 105], [119, 111, 114, 108, 100]] := by decide

/-- C5: building a version-3 archive from the same two files and opening
it recovers exactly 2 entries with byte-identical contents; the
terminator record (at byte offset 58 = 8 header + 4 seed + two records)
decodes to offset 0 after XOR against the table magic `magic93 0`, and the
parsing loop stops there — appending trailing garbage to the archive does
not change the parse. -/
theorem claim_C5 :
    (buildRgss3a demoFiles).isSome = true ∧
    openedVersion (openArchive ((buildRgss3a demoFiles).getD [])) = 3 ∧
    (openedEntries (openArchive ((buildRgss3a demoFiles).getD []))).length = 2 ∧
    (openedEntries (openArchive ((buildRgss3a demoFiles).getD []))).map
        (extractEntry ((buildRgss3a demoFiles).getD [])) =
      [[104, 105], [119, 111, 114, 108, 100]] ∧
    (readU32 ((buildRgss3a demoFiles).getD []) 58).map (fun w => w ^^^ magic93 0) =
      some 0 ∧
    openRgss3a (((buildRgss3a demoFiles).getD []) ++ [7, 7, 7, 7]) =
      openRgss3a ((buildRgss3a demoFiles).getD []) := by decide

/-- C2: in the legacy table parser, after the size field is XORed with the
next generator word (the generator having advanced once for the length
field, once per name byte, and once for the size field, i.e.
`magicStep^[nb.length + 2]` from the state at record start), the entry
records the current stream position `pos + 4 + name_len + 4` as its data
offset and the current generator state as its magic — exactly the state
the loop itself continues with — and the parser skips forward exactly
`size` bytes to the next record.  The legacy writer mirrors this: the
entry's data is ciphered by `Coder::copy` starting from
`magicStep^[name_len + 2]` of the state at entry start, the state reached
immediately after enciphering the size field, and that same state is the
table state after the entry. -/
theorem claim_C2 (f : Nat) (arc : List Nat) (pos m : Nat) (acc : List Entry)
    (raw : Nat) (nb : List Nat) (sraw : Nat) (n c : List Nat) (mw : Nat)
    (hw : readU32 arc pos = some raw)
    (hnb : readBytes arc (pos + 4) (raw ^^^ m) = some nb)
    (hval : validUtf8 (decodeNameLegacy nb (magicStep m)).1 = true)
    (hs : readU32 arc (pos + 4 + (raw ^^^ m)) = some sraw) :
    openRgssadLoop (f + 1) arc pos m acc =
      openRgssadLoop f arc
        (pos + 4 + (raw ^^^ m) + 4 + (sraw ^^^ magicStep^[nb.length + 1] m))
        (magicStep^[nb.length + 2] m)
        (acc ++ [⟨(decodeNameLegacy nb (magicStep m)).1,
                 ⟨pos + 4 + (raw ^^^ m) + 4,
                  magicStep^[nb.length + 2] m,
                  sraw ^^^ magicStep^[nb.length + 1] m⟩⟩]) ∧
    (writeEntryRgssad n c mw).1 =
      le4 (n.length ^^^ mw) ++ (encodeNameLegacy n (magicStep mw)).1 ++
        le4 (c.length ^^^ magicStep^[n.length + 1] mw) ++
        Coder.copy 8192 (magicStep^[n.length + 2] mw) c.length c ∧
    (writeEntryRgssad n c mw).2 = magicStep^[n.length + 2] mw := by
  have hd2 : (decodeNameLegacy nb (magicStep m)).2 = magicStep^[nb.length + 1] m := by
    rw [decodeNameLegacy_snd, ← Function.iterate_succ_apply]
  have hd3 : magicStep (magicStep^[nb.length + 1] m) = magicStep^[nb.length + 2] m :=
    (Function.iterate_succ_apply' magicStep (nb.length + 1) m).symm
  have he2 : (encodeNameLegacy n (magicStep mw)).2 = magicStep^[n.length + 1] mw := by
    rw [encodeNameLegacy_snd, ← Function.iterate_succ_apply]
  have he3 : magicStep (magicStep^[n.length + 1] mw) = magicStep^[n.length + 2] mw :=
    (Function.iterate_succ_apply' magicStep (n.length + 1) mw).symm
  refine ⟨?_, ?_, ?_⟩
  · simp only [openRgssadLoop, hw, hnb, hval, if_true, hs, hd2, hd3]
  · simp only [writeEntryRgssad, he2, he3]
  · simp only [writeEntryRgssad, he2, he3]

theorem claim_C2_witness :
    openRgssadLoop 1 [1, 0, 0, 0, 98, 24, 0, 0, 0] 0 0 [] =
      .ok [⟨[97], ⟨9, magicStep^[3] 0, 0⟩⟩] ∧
    (writeEntryRgssad [97] [104, 105] 3735931646).2 = magicStep^[3] 3735931646 := by
  have h := claim_C2 0 [1, 0, 0, 0, 98, 24, 0, 0, 0] 0 0 [] 1 [98] 24 [97] [104, 105]
    3735931646 (by decide) (by decide) (by decide) (by decide)
  refine ⟨?_, h.2.2⟩
  rw [h.1]
  decide

/-- C6: in the legacy format the generator advances once per *name byte*:
the decoded (resp. enciphered) name byte at index `i` is the plain byte
XORed with the low byte of `magicStep^[i]` of the state at name start
(with the backslash/slash translation on the appropriate side), and the
generator state after the name is `magicStep^[length]` — one advance per
byte, not one per 4 bytes — identically on the parse and write paths. -/
theorem claim_C6 (bs : List Nat) (m : Nat) :
    decodeNameLegacy bs m =
      ((List.range bs.length).map
        (fun i => slashify (bs.getD i 0 ^^^ (magicStep^[i] m % 256))),
       magicStep^[bs.length] m) ∧
    encodeNameLegacy bs m =
      ((List.range bs.length).map
        (fun i => unslashify (bs.getD i 0) ^^^ (magicStep^[i] m % 256)),
       magicStep^[bs.length] m) :=
  ⟨Prod.ext (decodeNameLegacy_fst bs m) (decodeNameLegacy_snd bs m),
   Prod.ext (encodeNameLegacy_fst bs m) (encodeNameLegacy_snd bs m)⟩

/-- C7: in both table-parsing loops a failed read of the leading
length/offset field ends the loop with the entries parsed so far (`ok`),
and an invalid-UTF-8 decoded name ends it the same way; but truncation
while reading the name bytes after a successful name-length read is a hard
`Io` error. -/
theorem claim_C7 (f : Nat) (arc : List Nat) (pos m tm : Nat) (acc : List Entry) :
    (readU32 arc pos = none → openRgssadLoop (f + 1) arc pos m acc = .ok acc) ∧
    (∀ raw, readU32 arc pos = some raw →
      readBytes arc (pos + 4) (raw ^^^ m) = none →
      openRgssadLoop (f + 1) arc pos m acc = .err .ioError) ∧
    (∀ raw nb, readU32 arc pos = some raw →
      readBytes arc (pos + 4) (raw ^^^ m) = some nb →
      validUtf8 (decodeNameLegacy nb (magicStep m)).1 = false →
      openRgssadLoop (f + 1) arc pos m acc = .ok acc) ∧
    (readU32 arc pos = none → openRgss3aLoop (f + 1) arc pos tm acc = .ok acc) ∧
    (∀ oraw sraw mraw lraw, readU32 arc pos = some oraw → oraw ^^^ tm ≠ 0 →
      readU32 arc (pos + 4) = some sraw → readU32 arc (pos + 8) = some mraw →
      readU32 arc (pos + 12) = some lraw →
      readBytes arc (pos + 16) (lraw ^^^ tm) = none →
      openRgss3aLoop (f + 1) arc pos tm acc = .err .ioError) ∧
    (∀ oraw sraw mraw lraw nb, readU32 arc pos = some oraw → oraw ^^^ tm ≠ 0 →
      readU32 arc (pos + 4) = some sraw → readU32 arc (pos + 8) = some mraw →
      readU32 arc (pos + 12) = some lraw →
      readBytes arc (pos + 16) (lraw ^^^ tm) = some nb →
      validUtf8 (decodeNameRgss3aFrom tm 0 nb) = false →
      openRgss3aLoop (f + 1) arc pos tm acc = .ok acc) := by
  refine ⟨?_, ?_, ?_, ?_, ?_, ?_⟩
  · intro h
    simp only [openRgssadLoop, h]
  · intro raw hw hnb
    simp only [openRgssadLoop, hw, hnb]
  · intro raw nb hw hnb hval
    simp only [openRgssadLoop, hw, hnb, hval, Bool.false_eq_true, if_false]
  · intro h
    simp only [openRgss3aLoop, h]
  · intro oraw sraw mraw lraw ho hnz hs hm2 hl hnb
    simp only [openRgss3aLoop, ho, if_neg hnz, hs, hm2, hl, hnb]
  · intro oraw sraw mraw lraw nb ho hnz hs hm2 hl hnb hval
    simp only [openRgss3aLoop, ho, if_neg hnz, hs, hm2, hl, hnb, hval,
      Bool.false_eq_true, if_false]

theorem claim_C7_witness :
    openRgssadLoop 1 [] 0 0 [] = .ok [] ∧
    openRgssadLoop 1 [255, 0, 0, 0] 0 0 [] = .err .ioError ∧
    openRgssadLoop 1 [1, 0, 0, 0, 131] 0 0 [] = .ok [] ∧
    openRgss3aLoop 1 [] 0 0 [] = .ok [] ∧
    openRgss3aLoop 1 [1, 0, 0, 0, 0, 0, 0, 0, 0, 0, 0, 0, 255, 0, 0, 0] 0 0 [] =
      .err .ioError ∧
    openRgss3aLoop 1 [1, 0, 0, 0, 0, 0, 0, 0, 0, 0, 0, 0, 1, 0, 0, 0, 128] 0 0 [] =
      .ok [] :=
  ⟨(claim_C7 0 [] 0 0 0 []).1 (by decide),
   (claim_C7 0 [255, 0, 0, 0] 0 0 0 []).2.1 255 (by decide) (by decide),
   (claim_C7 0 [1, 0, 0, 0, 131] 0 0 0 []).2.2.1 1 [131] (by decide) (by decide) (by decide),
   (claim_C7 0 [] 0 0 0 []).2.2.2.1 (by decide),
   (claim_C7 0 [1, 0, 0, 0, 0, 0, 0, 0, 0, 0, 0, 0, 255, 0, 0, 0] 0 0 0 []).2.2.2.2.1
     1 0 0 255 (by decide) (by decide) (by decide) (by decide) (by decide) (by decide),
   (claim_C7 0 [1, 0, 0, 0, 0, 0, 0, 0, 0, 0, 0, 0, 1, 0, 0, 0, 128] 0 0 0 []).2.2.2.2.2
     1 0 0 1 [128] (by decide) (by decide) (by decide) (by decide) (by decide) (by decide)
     (by decide)⟩

/-- C8: `advance_magic` returns the old 32-bit state and replaces it by
`old * 7 + 3` reduced modulo `2^32` (total, never an error, result in
range); the 9/3 variant `m * 9 + 3 mod 2^32` is applied exactly once to
the seed word at table start in the version-3 format to derive the
table-wide magic, on the read path (the whole table loop runs with the
constant `magic93 seed`) and on the write path (the seed is emitted in
plaintext and every table field is XORed against `magic93 seed`). -/
theorem claim_C8 (m : Nat) (arc : List Nat) (s : Nat)
    (files : List (List Nat × List Nat)) (m0 : Nat) (es : List R3Entry)
    (hs : readU32 arc 8 = some s)
    (hp : prepareRgss3a files = some es) :
    advance_magic m = (m, (m * 7 + 3) % 2 ^ 32) ∧
    (advance_magic m).2 < 2 ^ 32 ∧
    magic93 m = (m * 9 + 3) % 2 ^ 32 ∧
    openRgss3a arc = openRgss3aLoop (arc.length + 1) arc 12 (magic93 s) [] ∧
    writeEntriesRgss3a files m0 =
      some (le4 m0 ++ (es.map (writeTableEntryRgss3a (magic93 m0))).flatten ++
            le4 (0 ^^^ magic93 m0) ++
            (es.map (fun e => Coder.copy 8192 e.emagic e.content.length e.content)).flatten) := by
  refine ⟨rfl, ?_, rfl, ?_, ?_⟩
  · show (m * 7 + 3) % U32 < 2 ^ 32
    rw [U32_eq]
    omega
  · simp only [openRgss3a, hs]
  · simp only [writeEntriesRgss3a, hp]

theorem claim_C8_witness :
    advance_magic 5 = (5, (5 * 7 + 3) % 2 ^ 32) ∧
    (advance_magic 5).2 < 2 ^ 32 ∧
    magic93 5 = (5 * 9 + 3) % 2 ^ 32 ∧
    openRgss3a [0, 0, 0, 0, 0, 0, 0, 0, 0, 0, 0, 0] =
      openRgss3aLoop 13 [0, 0, 0, 0, 0, 0, 0, 0, 0, 0, 0, 0] 12 (magic93 0) [] ∧
    writeEntriesRgss3a demoFiles 0 =
      some (le4 0 ++
            ([⟨[97, 46, 116, 120, 116], [104, 105], 62, 3735931646⟩,
              ⟨[115, 117, 98, 47, 98, 46, 116, 120, 116], [119, 111, 114, 108, 100],
               64, 3735931646⟩].map (writeTableEntryRgss3a (magic93 0))).flatten ++
            le4 (0 ^^^ magic93 0) ++
            ([⟨[97, 46, 116, 120, 116], [104, 105], 62, 3735931646⟩,
              ⟨[115, 117, 98, 47, 98, 46, 116, 120, 116], [119, 111, 114, 108, 100],
               64, 3735931646⟩].map
              (fun e : R3Entry =>
                Coder.copy 8192 e.emagic e.content.length e.content)).flatten) :=
  claim_C8 5 [0, 0, 0, 0, 0, 0, 0, 0, 0, 0, 0, 0] 0 demoFiles 0
    [⟨[97, 46, 116, 120, 116], [104, 105], 62, 3735931646⟩,
     ⟨[115, 117, 98, 47, 98, 46, 116, 120, 116], [119, 111, 114, 108, 100],
      64, 3735931646⟩] (by decide) (by decide)

/-- C9: for a version-3 flush, the offset computation succeeds exactly
when the final accumulated 32-bit value fits (checked arithmetic: any
overflow of a name length or of the running offset is a fatal `unwrap`
panic, modelled as `none`, never a silent wrap), and on success the first
entry's data offset is `8 + 4 + Σ (16 + name_length) + 4` while each
subsequent entry's offset is the previous offset plus the previous size. -/
theorem claim_C9 (files : List (List Nat × List Nat)) (es : List R3Entry) (d : R3Entry)
    (hp : prepareRgss3a files = some es) :
    (∀ gs : List (List Nat × List Nat),
      (prepareRgss3a gs).isSome = true ↔
        16 + (gs.map (fun p => 16 + p.1.length + p.2.length)).sum ≤ U32 - 1) ∧
    es.length = files.length ∧
    (files ≠ [] →
      (es.getD 0 d).offset = 8 + 4 + (files.map (fun p => 16 + p.1.length)).sum + 4) ∧
    (∀ i, i + 1 < es.length →
      (es.getD (i + 1) d).offset =
        (es.getD i d).offset + (es.getD i d).content.length) := by
  rw [prepareRgss3a_eq files] at hp
  by_cases hc : 16 + (files.map (fun p => 16 + p.1.length)).sum +
      (files.map (fun p => p.2.length)).sum ≤ U32 - 1
  · rw [if_pos hc, Option.some.injEq] at hp
    subst hp
    refine ⟨?_, specAssign_length files _, ?_, ?_⟩
    · intro gs
      rw [prepareRgss3a_eq gs]
      have hs2 := sum_split gs
      split_ifs with h
      · simp only [Option.isSome_some, true_iff]
        omega
      · simp only [Option.isSome_none, Bool.false_eq_true, false_iff]
        omega
    · intro hne
      rw [specAssign_head files _ d hne]
      omega
    · intro i hi
      exact specAssign_succ files _ d i hi
  · rw [if_neg hc] at hp
    exact absurd hp (by simp)

theorem claim_C9_witness :
    ((prepareRgss3a demoFiles).isSome = true ↔
      16 + (demoFiles.map (fun p => 16 + p.1.length + p.2.length)).sum ≤ U32 - 1) ∧
    ([⟨[97, 46, 116, 120, 116], [104, 105], 62, 3735931646⟩,
      ⟨[115, 117, 98, 47, 98, 46, 116, 120, 116], [119, 111, 114, 108, 100], 64,
       3735931646⟩] : List R3Entry).length = demoFiles.length ∧
    (([⟨[97, 46, 116, 120, 116], [104, 105], 62, 3735931646⟩,
       ⟨[115, 117, 98, 47, 98, 46, 116, 120, 116], [119, 111, 114, 108, 100], 64,
        3735931646⟩] : List R3Entry).getD 0 ⟨[], [], 0, 0⟩).offset =
      8 + 4 + (demoFiles.map (fun p => 16 + p.1.length)).sum + 4 ∧
    (([⟨[97, 46, 116, 120, 116], [104, 105], 62, 3735931646⟩,
       ⟨[115, 117, 98, 47, 98, 46, 116, 120, 116], [119, 111, 114, 108, 100], 64,
        3735931646⟩] : List R3Entry).getD 1 ⟨[], [], 0, 0⟩).offset =
      (([⟨[97, 46, 116, 120, 116], [104, 105], 62, 3735931646⟩,
         ⟨[115, 117, 98, 47, 98, 46, 116, 120, 116], [119, 111, 114, 108, 100], 64,
          3735931646⟩] : List R3Entry).getD 0 ⟨[], [], 0, 0⟩).offset +
        (([⟨[97, 46, 116, 120, 116], [104, 105], 62, 3735931646⟩,
           ⟨[115, 117, 98, 47, 98, 46, 116, 120, 116], [119, 111, 114, 108, 100], 64,
            3735931646⟩] : List R3Entry).getD 0 ⟨[], [], 0, 0⟩).content.length := by
  have h := claim_C9 demoFiles
    [⟨[97, 46, 116, 120, 116], [104, 105], 62, 3735931646⟩,
     ⟨[115, 117, 98, 47, 98, 46, 116, 120, 116], [119, 111, 114, 108, 100], 64,
      3735931646⟩] ⟨[], [], 0, 0⟩ (by decide)
  exact ⟨h.1 demoFiles, h.2.1, h.2.2.1 (by decide), h.2.2.2 0 (by decide)⟩

/-- C10: `RGSSArchive::create` calls `File::create` (creating and
truncating the file) *before* validating the version, so for every version
outside `{1,2,3}` it returns `InvalidVersion` while the file at the given
path has been created and left empty (no header bytes written) — creation
is not atomic with validation. -/
theorem claim_C10 (fs : FS) (location : List Nat) (version : Nat)
    (h : version = 0 ∨ 3 < version) :
    (RGSSArchive.create fs location version).2 = .err .invalidVersion ∧
    fsGet (RGSSArchive.create fs location version).1 location = some [] := by
  have hv : version < 1 ∨ version > 3 := by omega
  constructor
  · show ((if version < 1 ∨ version > 3 then _ else _ : FS × ArcResult ArchiveHandle)).2 = _
    rw [if_pos hv]
  · show fsGet ((if version < 1 ∨ version > 3 then _ else _ : FS × ArcResult ArchiveHandle)).1
      location = _
    rw [if_pos hv]
    exact fsGet_fsSet fs location []

theorem claim_C10_witness :
    (RGSSArchive.create [] [97] 4).2 = .err .invalidVersion ∧
    fsGet (RGSSArchive.create [] [97] 4).1 [97] = some [] :=
  claim_C10 [] [97] 4 (by omega)

end Rgssad
